import Mathlib

/-!
Verification development for the any-sync-node repository.

We shallowly embed the components the claims concern:
  - the ACL state machine (src/common/pkg/acl/list/aclstate.go),
  - the document tree facade (src/pkg/acl/tree/doctree.go) together with a
    model of the in-memory Tree (the Tree implementation itself is not in
    the sources, so it is modelled from the specification),
  - the hot-sync scheduler (src/unnamed/part_003, package hotsync),
  - the responsible-peer manager (src/nodespace/peermanager/manager.go).

Go maps are embedded as association lists keyed by strings, Go slices as
lists, in-place mutation as explicit state passing, and fallible calls as
Option-valued results paired with the (possibly partially mutated) state,
matching the in-place mutation semantics of the Go code.
-/

set_option autoImplicit false

namespace AnySync

/-! ## ACL state machine, from src/common/pkg/acl/list/aclstate.go -/

/-- aclrecordproto.ACLUserPermissions. -/
inductive ACLPermissions where
  | Admin
  | Writer
  | Reader
  | Revoked
  deriving DecidableEq, Repr

/-- aclrecordproto.ACLUserState: identity, encryption key and permission of one user. -/
structure ACLUserState where
  identity : String
  encryptionKey : String
  permissions : ACLPermissions
  deriving DecidableEq, Repr

/-- aclrecordproto.ACLUserInvite: accept key, granted permission, sealed read keys. -/
structure ACLUserInvite where
  acceptPublicKey : String
  permissions : ACLPermissions
  encryptedReadKeys : List String
  deriving DecidableEq, Repr

/-- aclrecordproto.ACLUserJoin. -/
structure ACLUserJoin where
  identity : String
  acceptPubKey : String
  acceptSignature : String
  encryptionKey : String
  encryptedReadKeys : List String
  deriving DecidableEq, Repr

/-- One ReadKeyReplace of a UserRemove: target identity and the key sealed to it. -/
structure ReadKeyReplace where
  identity : String
  encryptedReadKey : String
  deriving DecidableEq, Repr

/-- aclrecordproto.ACLContentValue, the oneof carried by ACL records. -/
inductive ACLContentValue where
  | userPermissionChange (identity : String) (permissions : ACLPermissions)
  | userAdd (identity : String) (encryptionKey : String) (permissions : ACLPermissions)
      (encryptedReadKeys : List String)
  | userRemove (identity : String) (readKeyReplaces : List ReadKeyReplace)
  | userInvite (invite : ACLUserInvite)
  | userJoin (join : ACLUserJoin)
  deriving DecidableEq, Repr

/-- The error values of the acl list package. -/
inductive AclError where
  | noSuchUser
  | failedToDecrypt
  | documentForbidden
  | userAlreadyExists
  | noSuchInvite
  | invalidSignature
  | adminRequired
  | badAcceptKeyFormat
  deriving DecidableEq, Repr

/-- The cryptographic oracle: outcomes of the primitives the acl package calls
(own-key decryption, the fnv64 hash of a decrypted key, invite signature
verification, accept-key parsing). The engine treats these as opaque. -/
structure ACLCrypto where
  decrypt : String → Option String
  keyHash : String → Nat
  verifySig : String → String → String → Bool
  pubKeyParseOk : String → Bool

/-- ACLState: the replayable acl state. Go maps become association lists. -/
structure ACLState where
  id : String
  currentReadKeyHash : Nat
  userReadKeys : List (Nat × String)
  userStates : List (String × ACLUserState)
  userInvites : List (String × ACLUserInvite)
  identity : String
  totalReadKeys : Nat
  deriving DecidableEq, Repr

/-- Association-list lookup mirroring a Go map read. -/
def alistFind {α : Type} (l : List (String × α)) (k : String) : Option α :=
  match l.find? (fun p => p.1 == k) with
  | none => none
  | some p => some p.2

/-- Association-list insert mirroring a Go map write (replaces the old entry). -/
def alistInsert {α : Type} (l : List (String × α)) (k : String) (v : α) :
    List (String × α) :=
  (l.filter (fun p => p.1 ≠ k)) ++ [(k, v)]

/-- Nat-keyed insert for the read-key map. -/
def keyInsert (l : List (Nat × String)) (k : Nat) (v : String) : List (Nat × String) :=
  (l.filter (fun p => p.1 ≠ k)) ++ [(k, v)]

/-- ACLState.hasPermission: the user exists and its permission equals the one asked. -/
def ACLState.hasPermission (st : ACLState) (identity : String)
    (permission : ACLPermissions) : Bool :=
  match alistFind st.userStates identity with
  | none => false
  | some s => s.permissions == permission

/-- ACLState.isUserJoin: the first content item of the record is a UserJoin. -/
def isUserJoin (content : List ACLContentValue) : Bool :=
  match content with
  | .userJoin _ :: _ => true
  | _ => false

/-- ACLState.applyUserPermissionChange: sets the permission of an existing user;
there is no check protecting the sole remaining Admin. -/
def ACLState.applyUserPermissionChange (st : ACLState) (identity : String)
    (permissions : ACLPermissions) : Option AclError × ACLState :=
  match alistFind st.userStates identity with
  | none => (some .noSuchUser, st)
  | some s =>
      (none,
        { st with userStates :=
            alistInsert st.userStates identity { s with permissions := permissions } })

/-- ACLState.applyUserInvite: stores the invite under its accept public key. -/
def ACLState.applyUserInvite (st : ACLState) (invite : ACLUserInvite) :
    Option AclError × ACLState :=
  (none,
    { st with userInvites := alistInsert st.userInvites invite.acceptPublicKey invite })

/-- The loop of applyUserAdd and applyUserJoin decrypting the sealed read keys
addressed to our own identity, stopping at the first failure (the state keeps
the keys decrypted before the failure, as the Go code mutates in place). -/
def decryptKeysLoop (crypto : ACLCrypto) : ACLState → List String →
    Option AclError × ACLState
  | st, [] => (none, st)
  | st, k :: rest =>
      match crypto.decrypt k with
      | none => (some .failedToDecrypt, st)
      | some dec =>
          decryptKeysLoop crypto
            { st with userReadKeys := keyInsert st.userReadKeys (crypto.keyHash dec) dec }
            rest

/-- ACLState.applyUserJoin: the invite must exist, the joiner must be new, the
join signature over the joiner identity must verify under the invite accept
key; our own sealed keys are decrypted; the joiner gets the invite permission. -/
def ACLState.applyUserJoin (crypto : ACLCrypto) (st : ACLState) (j : ACLUserJoin) :
    Option AclError × ACLState :=
  match alistFind st.userInvites j.acceptPubKey with
  | none => (some .noSuchInvite, st)
  | some invite =>
      if (alistFind st.userStates j.identity).isSome then (some .userAlreadyExists, st)
      else if ¬ crypto.pubKeyParseOk invite.acceptPublicKey then
        (some .badAcceptKeyFormat, st)
      else if ¬ crypto.verifySig invite.acceptPublicKey j.identity j.acceptSignature then
        (some .invalidSignature, st)
      else if st.identity == j.identity then
        match decryptKeysLoop crypto st j.encryptedReadKeys with
        | (some e, st1) => (some e, st1)
        | (none, st1) =>
            let u : ACLUserState := ⟨j.identity, j.encryptionKey, invite.permissions⟩
            (none, { st1 with userStates := alistInsert st1.userStates j.identity u })
      else
        let u : ACLUserState := ⟨j.identity, j.encryptionKey, invite.permissions⟩
        (none, { st with userStates := alistInsert st.userStates j.identity u })

/-- ACLState.applyUserAdd: inserts the user first, then (for our own identity)
decrypts the sealed read keys; a decryption failure leaves the user inserted. -/
def ACLState.applyUserAdd (crypto : ACLCrypto) (st : ACLState) (identity : String)
    (encryptionKey : String) (permissions : ACLPermissions)
    (encryptedReadKeys : List String) : Option AclError × ACLState :=
  if (alistFind st.userStates identity).isSome then (some .userAlreadyExists, st)
  else
    let st1 :=
      { st with userStates :=
          alistInsert st.userStates identity ⟨identity, encryptionKey, permissions⟩ }
    if identity == st.identity then decryptKeysLoop crypto st1 encryptedReadKeys
    else (none, st1)

/-- Deletion of one identity from the user table (the Go map delete). -/
def ACLState.deleteUser (st : ACLState) (ident : String) : ACLState :=
  { st with userStates := st.userStates.filter (fun p => p.1 ≠ ident) }

/-- ACLState.applyUserRemove: removing oneself is forbidden, the user must
exist; the user is deleted, and only the replace entry addressed to our own
identity is decrypted (the first such entry, the loop breaks there). The
presence of replace entries for the other remaining users is not checked. -/
def ACLState.applyUserRemove (crypto : ACLCrypto) (st : ACLState) (identity : String)
    (readKeyReplaces : List ReadKeyReplace) : Option AclError × ACLState :=
  if identity == st.identity then (some .documentForbidden, st)
  else if (alistFind st.userStates identity).isNone then (some .noSuchUser, st)
  else
    match readKeyReplaces.find? (fun r => r.identity == st.identity) with
    | none => (none, st.deleteUser identity)
    | some r =>
        match crypto.decrypt r.encryptedReadKey with
        | none => (some .failedToDecrypt, st.deleteUser identity)
        | some dec =>
            (none, { st.deleteUser identity with
                     userReadKeys := keyInsert st.userReadKeys (crypto.keyHash dec) dec })

/-- ACLState.applyChangeContent: dispatch over the oneof. -/
def ACLState.applyChangeContent (crypto : ACLCrypto) (st : ACLState)
    (ch : ACLContentValue) : Option AclError × ACLState :=
  match ch with
  | .userPermissionChange identity permissions =>
      st.applyUserPermissionChange identity permissions
  | .userAdd identity encryptionKey permissions keys =>
      st.applyUserAdd crypto identity encryptionKey permissions keys
  | .userRemove identity replaces => st.applyUserRemove crypto identity replaces
  | .userInvite invite => st.applyUserInvite invite
  | .userJoin j => st.applyUserJoin crypto j

/-- The content-application loop of applyChangeData: items applied in order,
stopping at the first error (earlier mutations persist). -/
def applyContentList (crypto : ACLCrypto) : ACLState → List ACLContentValue →
    Option AclError × ACLState
  | st, [] => (none, st)
  | st, ch :: rest =>
      match st.applyChangeContent crypto ch with
      | (some e, st1) => (some e, st1)
      | (none, st1) => applyContentList crypto st1 rest

/-- The author check at the top of applyChangeData: skipped entirely when the
first content item is a UserJoin, otherwise the author must exist in
userStates and hold Admin. -/
def ACLState.authorCheck (st : ACLState) (content : List ACLContentValue)
    (identity : String) : Option AclError :=
  if isUserJoin content then none
  else if (alistFind st.userStates identity).isNone then some .noSuchUser
  else if ¬ st.hasPermission identity .Admin then some .adminRequired
  else none

/-- ACLState.applyChangeData: unless the first item is a UserJoin, the record
author must exist and hold Admin; then the items are applied in order; the
deferred block rotates currentReadKeyHash and bumps totalReadKeys when the
record hash differs from the current one, and only when no error occurred. -/
def ACLState.applyChangeData (crypto : ACLCrypto) (st : ACLState)
    (content : List ACLContentValue) (hash : Nat) (identity : String) :
    Option AclError × ACLState :=
  match st.authorCheck content identity with
  | some e => (some e, st)
  | none =>
      match applyContentList crypto st content with
      | (some e, st1) => (some e, st1)
      | (none, st1) =>
          if hash ≠ st1.currentReadKeyHash then
            (none, { st1 with totalReadKeys := st1.totalReadKeys + 1,
                              currentReadKeyHash := hash })
          else (none, st1)

/-! ## Document tree, from src/pkg/acl/tree/doctree.go.

The in-memory Tree type (attached and unattached partitions, heads, root) is
not among the sources; its operations are modelled from the specification
(sections 3 and 4.2) and are marked as such. The docTree routines
(addRawChanges, AddRawChanges, rollback, getAddedChanges, AddContent) follow
the source. -/

/-- A parsed change: id, parent ids, snapshot base id, snapshot flag. The
verification and payload fields play no role in the claims, and
NewVerifiedChangeFromRaw is taken to succeed. -/
structure Change where
  id : String
  prevIds : List String
  snapshotId : String
  isSnapshot : Bool
  deriving DecidableEq, Repr

/-- Modelled from the spec: the Tree of section 3 — attached and unattached
partitions (Go maps keyed by change id), the stored head list and the root id. -/
structure Tree where
  attached : List Change
  unAttached : List Change
  heads : List String
  rootId : String
  deriving DecidableEq, Repr

/-- Go map membership test on a change map. -/
def hasId (l : List Change) (i : String) : Bool := l.any (fun c => c.id == i)

/-- Go map write on a change map (replaces an entry with the same id). -/
def chInsert (l : List Change) (c : Change) : List Change :=
  (l.filter (fun x => x.id ≠ c.id)) ++ [c]

/-- Go map delete on a change map. -/
def chErase (l : List Change) (i : String) : List Change :=
  l.filter (fun x => x.id ≠ i)

/-- Modelled from the spec: a candidate attaches when all its parents are
attached. -/
def canAttach (att : List Change) (c : Change) : Bool :=
  c.prevIds.all (fun p => hasId att p)

/-- Modelled from the spec: one step of the drain loop — the first unattached
change whose parents have all arrived moves to attached. -/
def drainOnce (att un : List Change) : Option (List Change × List Change) :=
  match un.find? (fun c => canAttach att c) with
  | none => none
  | some c => some (chInsert att c, chErase un c.id)

/-- Modelled from the spec: the drain loop run to a fixpoint (the unattached
count bounds the number of moves). -/
def drain : Nat → List Change → List Change → List Change × List Change
  | 0, att, un => (att, un)
  | fuel + 1, att, un =>
      match drainOnce att un with
      | none => (att, un)
      | some p => drain fuel p.1 p.2

/-- Modelled from the spec: heads are the attached changes that no attached
change lists as a parent. -/
def computeHeads (att : List Change) : List String :=
  (att.filter (fun c => ! att.any (fun d => d.prevIds.contains c.id))).map
    (fun c => c.id)

/-- Ancestor closure: the ids reachable from the frontier through prevIds
links of attached changes, the frontier included. -/
def ancestorClosure : Nat → List Change → List String → List String → List String
  | 0, _, _, acc => acc
  | fuel + 1, att, frontier, acc =>
      match frontier with
      | [] => acc
      | i :: rest =>
          if acc.contains i then ancestorClosure fuel att rest acc
          else
            match att.find? (fun c => c.id == i) with
            | none => ancestorClosure fuel att rest (i :: acc)
            | some c => ancestorClosure fuel att (c.prevIds ++ rest) (i :: acc)

/-- The target id is an ancestor of (or equal to) the start inside attached. -/
def descendsFrom (att : List Change) (start target : String) : Bool :=
  (ancestorClosure (att.length * att.length + att.length + 1) att [start]
    []).contains target

/-- The Add outcome of the Tree (tree.go Mode). -/
inductive Mode where
  | nothing
  | append
  | rebuild
  deriving DecidableEq, Repr

/-- Modelled from the spec: the placement pass of Tree.Add — each candidate
attaches when its parents are attached, otherwise is parked in unattached. -/
def placeAll (t : Tree) (cs : List Change) : Tree :=
  cs.foldl
    (fun t c =>
      if canAttach t.attached c then { t with attached := chInsert t.attached c }
      else { t with unAttached := chInsert t.unAttached c })
    t

/-- Modelled from the spec: Tree.Add — place the candidates, drain, recompute
heads; mode Nothing when nothing attached, Rebuild when a newly attached
change is a proper ancestor of a prior head (a gap behind a head was filled),
Append otherwise. -/
def Tree.add (t : Tree) (cs : List Change) : Tree × Mode :=
  let t1 := placeAll t cs
  let d := drain t1.unAttached.length t1.attached t1.unAttached
  let newIds := (d.1.map (fun c => c.id)).filter (fun i => ! hasId t.attached i)
  let t2 : Tree := { t with attached := d.1, unAttached := d.2,
                            heads := computeHeads d.1 }
  if newIds.isEmpty then (t2, Mode.nothing)
  else if newIds.any (fun i =>
      t.heads.any (fun h => h ≠ i ∧ descendsFrom d.1 h i)) then
    (t2, Mode.rebuild)
  else (t2, Mode.append)

/-- Modelled from the spec: reduceTree — when some non-root attached snapshot
has every head as a descendant, it becomes the root and the attached changes
that do not descend from it are dropped. -/
def Tree.reduceTree (t : Tree) : Tree :=
  match t.attached.find? (fun s => s.isSnapshot && s.id != t.rootId &&
      t.heads.all (fun h => descendsFrom t.attached h s.id)) with
  | none => t
  | some s =>
      { t with rootId := s.id,
               attached := t.attached.filter
                 (fun c => descendsFrom t.attached c.id s.id) }

/-- The per-tree persistent storage: stored changes and the stored head list. -/
structure RawStorage where
  changes : List Change
  heads : List String
  deriving DecidableEq, Repr

/-- A storage call made by AddRawChanges. -/
inductive StorageWrite where
  | addRawChange (c : Change)
  | setHeads (hs : List String)
  deriving DecidableEq, Repr

/-- storage.AddRawChange: append-only, idempotent by id. -/
def storagePut (s : RawStorage) (c : Change) : RawStorage :=
  if hasId s.changes c.id then s else { s with changes := s.changes ++ [c] }

/-- Modelled from the spec: the DFS of treebuilder.Build — walk back from the
frontier through parents, stopping the descent at snapshots. -/
def collectDfs : Nat → List Change → List String → List String → List String
  | 0, _, _, acc => acc
  | fuel + 1, pool, frontier, acc =>
      match frontier with
      | [] => acc
      | i :: rest =>
          if acc.contains i then collectDfs fuel pool rest acc
          else
            match pool.find? (fun c => c.id == i) with
            | none => collectDfs fuel pool rest acc
            | some c =>
                if c.isSnapshot then collectDfs fuel pool rest (i :: acc)
                else collectDfs fuel pool (c.prevIds ++ rest) (i :: acc)

/-- Modelled from the spec: treebuilder.Build — loads from the storage heads,
ingests the extra changes, deduplicates, and rebuilds a tree with recomputed
heads and root (the change without attached parents). -/
def buildTree (s : RawStorage) (extra : List Change) : Tree :=
  let pool := extra ++ s.changes.filter (fun c => ! extra.any (fun e => e.id == c.id))
  let ids := collectDfs (pool.length * pool.length + pool.length + s.heads.length + 1)
      pool s.heads []
  let att := pool.filter (fun c => ids.contains c.id)
  let root := match att.find? (fun c => c.prevIds.all (fun p => ! hasId att p)) with
    | some c => c.id
    | none => ""
  { attached := att, unAttached := [], heads := computeHeads att, rootId := root }

/-- The docTree state: in-memory tree plus its storage handle. -/
structure DocTreeState where
  tree : Tree
  storage : RawStorage
  deriving DecidableEq, Repr

/-- docTree.HasChange: membership in either partition. -/
def hasChangeB (t : Tree) (i : String) : Bool :=
  hasId t.attached i || hasId t.unAttached i

/-- The validator, parameterized by the per-change ACL verdict: ValidateTree
accepts when every attached change is valid. -/
def validateTree (valid : String → Bool) (t : Tree) : Bool :=
  t.attached.all (fun c => valid c.id)

/-- AddResultSummary. -/
inductive Summary where
  | nothing
  | append
  | rebuild
  deriving DecidableEq, Repr

/-- AddResult: old heads, new heads, added raw changes, summary. -/
structure AddResult where
  oldHeads : List String
  heads : List String
  added : List Change
  summary : Summary
  deriving DecidableEq, Repr

/-- The zero value of AddResult, returned by Go on the error paths. -/
def zeroAddResult : AddResult := ⟨[], [], [], Summary.nothing⟩

/-- The errors surfaced by the docTree routines. -/
inductive DocError where
  | noReadKey
  | encryptFailed
  | signFailed
  | storageFailed
  | hasInvalidChanges
  | validationFailed
  deriving DecidableEq, Repr

/-- A listener notification. -/
inductive Event where
  | update
  | rebuild
  deriving DecidableEq, Repr

/-- Go: make a slice of length zero (with capacity) and copy the heads into
it; copy transfers min(len(dst), len(src)) = 0 elements, so the result is
empty. This is the prevHeadsCopy and headsCopy pattern of doctree.go. -/
def goZeroLenCopy (src : List String) : List String := src.take 0

/-- The candidate filter of addRawChanges: raw changes whose id the tree does
not know yet (duplicates inside the batch are kept — HasChange consults the
tree only). -/
def candidatesOf (t : Tree) (raws : List Change) : List Change :=
  raws.filter (fun ch => ! hasChangeB t ch.id)

/-- The newly received snapshots among the candidates. -/
def newSnapshotsOf (t : Tree) (raws : List Change) : List Change :=
  (candidatesOf t raws).filter (fun c => c.isSnapshot)

/-- doctree.go isOldSnapshot: the candidate descends neither from the current
root nor from a snapshot arriving in this batch. -/
def isOldSnapshotB (t : Tree) (raws : List Change) (ch : Change) : Bool :=
  ch.snapshotId != t.rootId &&
    (newSnapshotsOf t raws).all (fun sn => sn.id != ch.snapshotId)

/-- doctree.go getAddedChanges: the candidates whose id ended up attached. -/
def getAddedChanges (t : Tree) (cs : List Change) : List Change :=
  cs.filter (fun c => hasId t.attached c.id)

/-- One step of the doctree.go rollback loop: delete the candidate id from
attached, or else from unattached. -/
def rollbackStep (t : Tree) (c : Change) : Tree :=
  if hasId t.attached c.id then { t with attached := chErase t.attached c.id }
  else if hasId t.unAttached c.id then
    { t with unAttached := chErase t.unAttached c.id }
  else t

/-- doctree.go rollback: delete each candidate id from attached, or else from
unattached; the stored head list is not restored. -/
def rollbackTree (t : Tree) (cs : List Change) : Tree :=
  cs.foldl rollbackStep t

/-- The ids present in the two partitions of a tree (the Go map key sets; a
well-formed tree has no duplicates across them). -/
def allIds (t : Tree) : List String :=
  t.attached.map (fun c => c.id) ++ t.unAttached.map (fun c => c.id)

/-- The value returned by the inner addRawChanges: the Add mode (the zero
value Nothing on the paths that never run Tree.Add), the AddResult, the error
and the resulting tree. -/
structure InnerResult where
  mode : Mode
  res : AddResult
  err : Option DocError
  tree : Tree
  deriving DecidableEq, Repr

/-- doctree.go addRawChanges (the inner routine): snapshot the previous heads
(into a zero-length slice, hence empty), filter known ids, return Nothing for
an all-known batch; rebuild from storage when a candidate references an old
snapshot (rebuilding again without candidates on failure); otherwise run
Tree.Add, validate, and roll the candidates back on a validation failure,
returning HasInvalidChanges. -/
def addRawChangesInner (valid : String → Bool) (d : DocTreeState)
    (raws : List Change) : InnerResult :=
  let prevHeadsCopy := goZeroLenCopy d.tree.heads
  let notSeen := candidatesOf d.tree raws
  if notSeen.isEmpty then
    ⟨Mode.nothing, ⟨prevHeadsCopy, prevHeadsCopy, [], Summary.nothing⟩, none, d.tree⟩
  else if notSeen.any (fun ch => isOldSnapshotB d.tree raws ch) then
    let t1 := buildTree d.storage notSeen
    if validateTree valid t1 then
      ⟨Mode.nothing, ⟨prevHeadsCopy, goZeroLenCopy t1.heads,
        getAddedChanges t1 notSeen, Summary.rebuild⟩, none, t1⟩
    else
      ⟨Mode.nothing, zeroAddResult, some DocError.validationFailed,
        buildTree d.storage []⟩
  else
    let p := d.tree.add notSeen
    match p.2 with
    | Mode.nothing =>
        ⟨Mode.nothing, ⟨prevHeadsCopy, prevHeadsCopy, [], Summary.nothing⟩, none, p.1⟩
    | m =>
        if validateTree valid p.1 then
          ⟨m, ⟨prevHeadsCopy, goZeroLenCopy p.1.heads, getAddedChanges p.1 notSeen,
            Summary.append⟩, none, p.1⟩
        else
          ⟨m, zeroAddResult, some DocError.hasInvalidChanges,
            rollbackTree p.1 notSeen⟩

/-- The outcome of one AddRawChanges call: final state, result, error, the
storage calls made and the listener notifications fired. -/
structure CallResult where
  state : DocTreeState
  res : AddResult
  err : Option DocError
  writes : List StorageWrite
  events : List Event
  deriving DecidableEq, Repr

/-- doctree.go AddRawChanges: on an inner error return it immediately (no
storage call, no notification); otherwise reduce the tree, persist every
added change, unconditionally SetHeads, and notify Update or Rebuild by mode. -/
def addRawChangesCall (valid : String → Bool) (d : DocTreeState)
    (raws : List Change) : CallResult :=
  let o := addRawChangesInner valid d raws
  match o.err with
  | some e => ⟨⟨o.tree, d.storage⟩, o.res, some e, [], []⟩
  | none =>
      let t := o.tree.reduceTree
      let st1 := o.res.added.foldl storagePut d.storage
      let st2 := { st1 with heads := t.heads }
      let writes := o.res.added.map StorageWrite.addRawChange ++
        [StorageWrite.setHeads t.heads]
      let events := match o.mode with
        | Mode.append => [Event.update]
        | Mode.rebuild => [Event.rebuild]
        | Mode.nothing => []
      ⟨⟨t, st2⟩, o.res, none, writes, events⟩

/-! ## docTree.AddContent listener notification (doctree.go lines 157-229) -/

/-- The outcomes of the fallible steps of AddContent, in program order:
current read key lookup, payload encryption, signing, the storage AddRawChange
call, the storage SetHeads call. -/
structure AddContentEnv where
  readKeyOk : Bool
  encryptOk : Bool
  signOk : Bool
  storeOk : Bool
  setHeadsOk : Bool
  deriving DecidableEq, Repr

/-- The kind of a storage call made by AddContent. -/
inductive WriteKind where
  | addRawChange
  | setHeads
  deriving DecidableEq, Repr

/-- The body of AddContent without its deferred block: the first failing step
aborts with its error; the storage calls attempted so far are recorded. -/
def addContentBody (e : AddContentEnv) : Option DocError × List WriteKind :=
  if ! e.readKeyOk then (some DocError.noReadKey, [])
  else if ! e.encryptOk then (some DocError.encryptFailed, [])
  else if ! e.signOk then (some DocError.signFailed, [])
  else if ! e.storeOk then (some DocError.storageFailed, [WriteKind.addRawChange])
  else if ! e.setHeadsOk then
    (some DocError.storageFailed, [WriteKind.addRawChange, WriteKind.setHeads])
  else (none, [WriteKind.addRawChange, WriteKind.setHeads])

/-- Go defer semantics: the deferred notification runs when the body returns,
on every path. -/
def runWithDefer (deferred : List Event) (r : Option DocError × List WriteKind) :
    Option DocError × List WriteKind × List Event :=
  (r.1, r.2, deferred)

/-- docTree.AddContent with an installed update listener: the deferred block
fires Update once whatever the body did. -/
def addContent (e : AddContentEnv) : Option DocError × List WriteKind × List Event :=
  runWithDefer [Event.update] (addContentBody e)

/-! ## HotSync scheduler, from src/unnamed/part_003 (package hotsync) -/

/-- hotSync: the FIFO of cold space ids, the set of active ids (a Go map) and
the concurrency budget. -/
structure HotSyncState where
  spaceQueue : List String
  syncQueue : List String
  simultaneousSync : Nat
  deriving DecidableEq, Repr

/-- Set insert for the syncQueue map. -/
def setInsert (l : List String) (i : String) : List String :=
  if l.contains i then l else l ++ [i]

/-- hotSync.batchLen: simultaneousSync − |syncQueue| capped by |spaceQueue|,
in Go int arithmetic. -/
def batchLen (s : HotSyncState) : Int :=
  min ((s.simultaneousSync : Int) - (s.syncQueue.length : Int))
    ((s.spaceQueue.length : Int))

/-- One checkCache tick: the new state, the hit and miss counter increments
and the dequeued batch. -/
structure TickResult where
  state : HotSyncState
  hitInc : Nat
  missInc : Nat
  batch : List String
  deriving DecidableEq, Repr

/-- The load loop of checkCache over the dequeued batch: a failed cache load
counts a hit and drops the id, a successful one counts a miss and inserts the
id into the sync queue. -/
def loadLoop (loadOk : String → Bool) :
    List String → List String → Nat → Nat → List String × Nat × Nat
  | [], sq, hits, misses => (sq, hits, misses)
  | i :: rest, sq, hits, misses =>
      if loadOk i then loadLoop loadOk rest (setInsert sq i) hits (misses + 1)
      else loadLoop loadOk rest sq (hits + 1) misses

/-- hotSync.checkCache: prune syncQueue of ids no longer cached
(checkRemoved), compute the batch length, slice that many ids off the head of
spaceQueue and load each. Returns none where the Go slice expression would
panic (a negative batch length). -/
def checkCache (inCache loadOk : String → Bool) (s : HotSyncState) :
    Option TickResult :=
  let sync1 := s.syncQueue.filter inCache
  let s1 : HotSyncState := { s with syncQueue := sync1 }
  let n : Int := batchLen s1
  if n < 0 then none
  else
    let k := n.toNat
    let cp := s1.spaceQueue.take k
    let rest := s1.spaceQueue.drop k
    let r := loadLoop loadOk cp sync1 0 0
    some ⟨{ s1 with spaceQueue := rest, syncQueue := r.1 }, r.2.1, r.2.2, cp⟩

/-! ## Responsible peers, from src/nodespace/peermanager/manager.go -/

/-- nodePeerManager: the responsible-peer list and whether it was updated less
than a minute ago. -/
structure NodePeerState where
  responsiblePeers : List String
  fresh : Bool
  deriving DecidableEq, Repr

/-- nodePeerManager.getResponsiblePeersObjects: fast path when the list is
nonempty and fresh; otherwise the full configured node-id list of the space is
appended to the existing list. -/
def getResponsiblePeersObjects (nodeIds : List String) (s : NodePeerState) :
    List String × NodePeerState :=
  if s.responsiblePeers.length ≠ 0 ∧ s.fresh = true then (s.responsiblePeers, s)
  else
    let l := s.responsiblePeers ++ nodeIds
    (l, ⟨l, true⟩)

/-- Passage of the freshness window (a minute since the last update). -/
def staleTick (s : NodePeerState) : NodePeerState := { s with fresh := false }

/-- k refreshes, each after the freshness window expired. -/
def refreshIter (nodeIds : List String) : Nat → NodePeerState → NodePeerState
  | 0, s => s
  | k + 1, s => refreshIter nodeIds k (getResponsiblePeersObjects nodeIds (staleTick s)).2

/-! ### Concrete fixtures for the document-tree claims -/

/-- The root snapshot r. -/
def rootChange : Change := ⟨"r", [], "", true⟩

/-- c1 with parent r. -/
def c1Change : Change := ⟨"c1", ["r"], "r", false⟩

/-- c2 with parent c1. -/
def c2Change : Change := ⟨"c2", ["c1"], "r", false⟩

/-- The initial tree holding only the root r. -/
def initialTree : Tree := ⟨[rootChange], [], ["r"], "r"⟩

/-- The matching storage contents. -/
def initialStorage : RawStorage := ⟨[rootChange], ["r"]⟩

/-- The initial docTree state. -/
def initialDoc : DocTreeState := ⟨initialTree, initialStorage⟩

/-- An ACL verdict accepting every change. -/
def allValid : String → Bool := fun _ => true

/-- An ACL verdict rejecting exactly c1. -/
def rejectC1 : String → Bool := fun i => i != "c1"

/-- The state after ingesting c1 and c2. -/
def docAfterFirst : DocTreeState :=
  (addRawChangesCall allValid initialDoc [c1Change, c2Change]).state

/-! ### Concrete fixtures for the hot-sync and peer claims -/

/-- Cache membership for the hot-sync witness: everything stays cached. -/
def allCached : String → Bool := fun _ => true

/-- Load verdict for the hot-sync witness: space b fails to load. -/
def loadNotB : String → Bool := fun i => i != "b"

/-- A hot-sync state with budget 2 and four queued spaces. -/
def hotState : HotSyncState := ⟨["a", "b", "c", "d"], [], 2⟩

/-! ### Concrete fixtures for the ACL claims -/

/-- A crypto oracle for concrete runs: signature checks pass, accept keys
parse, nothing decrypts (the replaying node holds no private key). -/
def testCrypto : ACLCrypto where
  decrypt := fun _ => none
  keyHash := fun _ => 0
  verifySig := fun _ _ _ => true
  pubKeyParseOk := fun _ => true

/-- A state with admin A and writer B, current read key hash 5, one read key. -/
def stRemove : ACLState where
  id := "root"
  currentReadKeyHash := 5
  userReadKeys := []
  userStates := [("A", ⟨"A", "ekA", .Admin⟩), ("B", ⟨"B", "ekB", .Writer⟩)]
  userInvites := []
  identity := "me"
  totalReadKeys := 1

/-- A state with a single admin A and a pending writer invite. -/
def stJoin : ACLState where
  id := "root"
  currentReadKeyHash := 0
  userReadKeys := []
  userStates := [("A", ⟨"A", "ekA", .Admin⟩)]
  userInvites := [("iPub", ⟨"iPub", .Writer, []⟩)]
  identity := "me"
  totalReadKeys := 1

/-- A state whose only user, A, is the sole Admin. -/
def stSoleAdmin : ACLState where
  id := "root"
  currentReadKeyHash := 0
  userReadKeys := []
  userStates := [("A", ⟨"A", "ekA", .Admin⟩)]
  userInvites := []
  identity := "me"
  totalReadKeys := 1

/-- A record with two items whose first is a UserJoin: join of B through the
pending invite, followed by a removal of A. -/
def joinRemoveContent : List ACLContentValue :=
  [.userJoin ⟨"B", "iPub", "sig", "ekB", []⟩, .userRemove "A" []]

/-! ### Association-list lemmas -/

theorem alistFind_filter_ne {α : Type} (l : List (String × α)) (k : String) :
    alistFind (l.filter (fun p => p.1 ≠ k)) k = none := by
  have h : (l.filter (fun p => p.1 ≠ k)).find? (fun p => p.1 == k) = none := by
    rw [List.find?_eq_none]
    intro x hx
    have hne := (List.mem_filter.mp hx).2
    simp only [decide_not, Bool.not_eq_true', decide_eq_false_iff_not] at hne
    simpa using hne
  unfold alistFind
  rw [h]

theorem alistFind_insert {α : Type} (l : List (String × α)) (k : String) (v : α) :
    alistFind (alistInsert l k v) k = some v := by
  unfold alistInsert alistFind
  induction l with
  | nil => simp
  | cons p rest ih =>
    by_cases h : p.1 = k
    · simpa [List.filter_cons, h] using ih
    · simpa [List.filter_cons, h, List.find?_cons] using ih

/-! ### Preservation of the read-key counters by the content appliers -/

theorem decryptKeysLoop_preserves (crypto : ACLCrypto) (ks : List String) :
    ∀ st : ACLState,
      (decryptKeysLoop crypto st ks).2.currentReadKeyHash = st.currentReadKeyHash ∧
      (decryptKeysLoop crypto st ks).2.totalReadKeys = st.totalReadKeys ∧
      (decryptKeysLoop crypto st ks).2.userStates = st.userStates := by
  induction ks with
  | nil => intro st; exact ⟨rfl, rfl, rfl⟩
  | cons k rest ih =>
    intro st
    simp only [decryptKeysLoop]
    cases crypto.decrypt k with
    | none => exact ⟨rfl, rfl, rfl⟩
    | some dec => simpa using ih _

theorem applyChangeContent_preserves (crypto : ACLCrypto) (st : ACLState)
    (ch : ACLContentValue) :
    (st.applyChangeContent crypto ch).2.currentReadKeyHash = st.currentReadKeyHash ∧
    (st.applyChangeContent crypto ch).2.totalReadKeys = st.totalReadKeys := by
  cases ch with
  | userPermissionChange i p =>
    simp only [ACLState.applyChangeContent, ACLState.applyUserPermissionChange]
    cases alistFind st.userStates i <;> exact ⟨rfl, rfl⟩
  | userAdd i ek p ks =>
    simp only [ACLState.applyChangeContent, ACLState.applyUserAdd]
    by_cases h : (alistFind st.userStates i).isSome
    · simp [h]
    · simp only [h, if_false, Bool.false_eq_true]
      by_cases h2 : (i == st.identity) = true
      · simp only [h2, if_true]
        exact ⟨(decryptKeysLoop_preserves crypto ks _).1,
               (decryptKeysLoop_preserves crypto ks _).2.1⟩
      · simp [h2]
  | userRemove i reps =>
    simp only [ACLState.applyChangeContent, ACLState.applyUserRemove]
    by_cases h : (i == st.identity) = true
    · simp [h]
    · simp only [h, Bool.false_eq_true, if_false]
      by_cases h2 : (alistFind st.userStates i).isNone
      · simp [h2]
      · simp only [h2, if_false, Bool.false_eq_true]
        cases hf : reps.find? (fun r => r.identity == st.identity) with
        | none => simp [ACLState.deleteUser]
        | some r =>
          cases hd : crypto.decrypt r.encryptedReadKey with
          | none => simp [hd, ACLState.deleteUser]
          | some dec => simp [hd, ACLState.deleteUser]
  | userInvite inv => exact ⟨rfl, rfl⟩
  | userJoin j =>
    simp only [ACLState.applyChangeContent, ACLState.applyUserJoin]
    cases alistFind st.userInvites j.acceptPubKey with
    | none => exact ⟨rfl, rfl⟩
    | some invite =>
      by_cases h : (alistFind st.userStates j.identity).isSome
      · simp [h]
      · by_cases h2 : crypto.pubKeyParseOk invite.acceptPublicKey
        · by_cases h3 : crypto.verifySig invite.acceptPublicKey j.identity j.acceptSignature
          · by_cases h4 : (st.identity == j.identity) = true
            · simp only [h, h2, h3, h4, Bool.false_eq_true, if_false, not_true,
                if_true, not_false_eq_true, ite_true, ite_false]
              have hk := decryptKeysLoop_preserves crypto j.encryptedReadKeys st
              cases hkl : decryptKeysLoop crypto st j.encryptedReadKeys with
              | mk e st1 =>
                rw [hkl] at hk
                cases e <;> exact ⟨hk.1, hk.2.1⟩
            · simp [h, h2, h3, h4]
          · simp [h, h2, h3]
        · simp [h, h2]

theorem applyContentList_preserves (crypto : ACLCrypto) (content : List ACLContentValue) :
    ∀ st : ACLState,
      (applyContentList crypto st content).2.currentReadKeyHash = st.currentReadKeyHash ∧
      (applyContentList crypto st content).2.totalReadKeys = st.totalReadKeys := by
  induction content with
  | nil => intro st; exact ⟨rfl, rfl⟩
  | cons ch rest ih =>
    intro st
    simp only [applyContentList]
    have hc := applyChangeContent_preserves crypto st ch
    cases hch : st.applyChangeContent crypto ch with
    | mk e st1 =>
      rw [hch] at hc
      cases e with
      | none => exact ⟨((ih st1).1).trans hc.1, ((ih st1).2).trans hc.2⟩
      | some e => exact ⟨hc.1, hc.2⟩

/-- Helper: the full rotation behaviour of applyChangeData, shared by the
claims about read-key rotation. -/
theorem applyChangeData_rotationFacts (crypto : ACLCrypto) (st : ACLState)
    (content : List ACLContentValue) (hash : Nat) (identity : String) :
    ((st.applyChangeData crypto content hash identity).1 = none →
      (st.applyChangeData crypto content hash identity).2.currentReadKeyHash = hash ∧
      (hash ≠ st.currentReadKeyHash →
        (st.applyChangeData crypto content hash identity).2.totalReadKeys =
          st.totalReadKeys + 1) ∧
      (hash = st.currentReadKeyHash →
        (st.applyChangeData crypto content hash identity).2.totalReadKeys =
          st.totalReadKeys)) ∧
    (∀ e, (st.applyChangeData crypto content hash identity).1 = some e →
      (st.applyChangeData crypto content hash identity).2.currentReadKeyHash =
        st.currentReadKeyHash ∧
      (st.applyChangeData crypto content hash identity).2.totalReadKeys =
        st.totalReadKeys) := by
  have hp := applyContentList_preserves crypto content st
  unfold ACLState.applyChangeData
  split
  · exact ⟨fun h => by simp at h, fun e2 h => ⟨rfl, rfl⟩⟩
  · split
    · next e st1 hl =>
      rw [hl] at hp
      exact ⟨fun h => by simp at h, fun e2 h => ⟨hp.1, hp.2⟩⟩
    · next st1 hl =>
      rw [hl] at hp
      split
      · next hne =>
        refine ⟨fun _ => ⟨rfl, fun _ => ?_, fun heq => ?_⟩, fun e h => by simp at h⟩
        · simpa using hp.2
        · exact absurd (heq.trans hp.1.symm) hne
      · next hne =>
        have hh : hash = st1.currentReadKeyHash := not_not.mp hne
        refine ⟨fun _ => ⟨hh.symm, fun hne2 => ?_, fun _ => hp.2⟩, fun e h => by simp at h⟩
        exact absurd (hh.trans hp.1) hne2


/-- Helper: a singleton content list applies exactly as its single item. -/
theorem applyContentList_singleton (crypto : ACLCrypto) (st : ACLState)
    (ch : ACLContentValue) :
    applyContentList crypto st [ch] = st.applyChangeContent crypto ch := by
  simp only [applyContentList]
  cases h : st.applyChangeContent crypto ch with
  | mk e st1 => cases e <;> rfl

/-- Helper: a successful applyUserRemove leaves the user table equal to the old
table with the removed identity filtered out. -/
theorem applyUserRemove_deletes (crypto : ACLCrypto) (st : ACLState) (ident : String)
    (reps : List ReadKeyReplace)
    (h : (st.applyUserRemove crypto ident reps).1 = none) :
    (st.applyUserRemove crypto ident reps).2.userStates =
      st.userStates.filter (fun p => p.1 ≠ ident) := by
  unfold ACLState.applyUserRemove at h ⊢
  split at h
  · simp at h
  · next h1 =>
    split at h
    · simp at h
    · next h2 =>
      rw [if_neg h1, if_neg h2]
      cases hf : reps.find? (fun r => r.identity == st.identity) with
      | none => simp only [hf]; rfl
      | some r =>
        simp only [hf] at h ⊢
        cases hd : crypto.decrypt r.encryptedReadKey with
        | none => simp only [hd] at h; simp at h
        | some dec => simp only [hd]; rfl

/-- C10: for every non-root ACL record applied through applyChangeData, success
sets currentReadKeyHash to the record hash and increments totalReadKeys exactly
when the record hash differs from the prior one, whatever content items the
record carries; a failed application leaves both fields unchanged. -/
theorem c10_read_key_rotation (crypto : ACLCrypto) (st : ACLState)
    (content : List ACLContentValue) (hash : Nat) (identity : String) :
    ((st.applyChangeData crypto content hash identity).1 = none →
      (st.applyChangeData crypto content hash identity).2.currentReadKeyHash = hash ∧
      (hash ≠ st.currentReadKeyHash →
        (st.applyChangeData crypto content hash identity).2.totalReadKeys =
          st.totalReadKeys + 1) ∧
      (hash = st.currentReadKeyHash →
        (st.applyChangeData crypto content hash identity).2.totalReadKeys =
          st.totalReadKeys)) ∧
    (∀ e, (st.applyChangeData crypto content hash identity).1 = some e →
      (st.applyChangeData crypto content hash identity).2.currentReadKeyHash =
        st.currentReadKeyHash ∧
      (st.applyChangeData crypto content hash identity).2.totalReadKeys =
        st.totalReadKeys) :=
  applyChangeData_rotationFacts crypto st content hash identity

/-- Witness for C10 at a concrete record: a UserAdd record with a fresh hash 7
rotates the hash and bumps the counter. -/
theorem c10_read_key_rotation_witness :
    (stRemove.applyChangeData testCrypto [ACLContentValue.userAdd "C" "ekC" .Writer []]
        7 "A").2.currentReadKeyHash = 7 ∧
    (stRemove.applyChangeData testCrypto [ACLContentValue.userAdd "C" "ekC" .Writer []]
        7 "A").2.totalReadKeys = stRemove.totalReadKeys + 1 := by
  have h := (c10_read_key_rotation testCrypto stRemove
    [ACLContentValue.userAdd "C" "ekC" .Writer []] 7 "A").1 (by decide)
  exact ⟨h.1, h.2.1 (by decide)⟩

/-- C4 counterexample: a UserRemove record whose CurrentReadKeyHash equals the
prior hash applies successfully without rotating the hash, without bumping the
counter, and without storing any sealed entry for the remaining user A. -/
theorem c4_counterexample :
    (stRemove.applyChangeData testCrypto [ACLContentValue.userRemove "B" []] 5 "A").1 =
      none ∧
    (stRemove.applyChangeData testCrypto
      [ACLContentValue.userRemove "B" []] 5 "A").2.currentReadKeyHash =
      stRemove.currentReadKeyHash ∧
    (stRemove.applyChangeData testCrypto
      [ACLContentValue.userRemove "B" []] 5 "A").2.totalReadKeys =
      stRemove.totalReadKeys ∧
    alistFind (stRemove.applyChangeData testCrypto
      [ACLContentValue.userRemove "B" []] 5 "A").2.userStates "B" = none ∧
    (stRemove.applyChangeData testCrypto
      [ACLContentValue.userRemove "B" []] 5 "A").2.userReadKeys = [] := by
  decide

/-- C4 (amended): a successfully applied UserRemove record deletes the user,
sets currentReadKeyHash to the record hash, and increments totalReadKeys
exactly when the record hash differs from the prior one; the code does not
enforce that remaining users receive sealed entries for the new key. -/
theorem c4_user_remove_rotation (crypto : ACLCrypto) (st : ACLState) (ident : String)
    (reps : List ReadKeyReplace) (hash : Nat) (author : String)
    (hok : (st.applyChangeData crypto [ACLContentValue.userRemove ident reps]
      hash author).1 = none) :
    (st.applyChangeData crypto [ACLContentValue.userRemove ident reps]
      hash author).2.currentReadKeyHash = hash ∧
    (hash ≠ st.currentReadKeyHash →
      (st.applyChangeData crypto [ACLContentValue.userRemove ident reps]
        hash author).2.totalReadKeys = st.totalReadKeys + 1) ∧
    (hash = st.currentReadKeyHash →
      (st.applyChangeData crypto [ACLContentValue.userRemove ident reps]
        hash author).2.totalReadKeys = st.totalReadKeys) ∧
    alistFind (st.applyChangeData crypto [ACLContentValue.userRemove ident reps]
      hash author).2.userStates ident = none := by
  have hrot := (applyChangeData_rotationFacts crypto st
    [ACLContentValue.userRemove ident reps] hash author).1 hok
  refine ⟨hrot.1, hrot.2.1, hrot.2.2, ?_⟩
  unfold ACLState.applyChangeData at hok ⊢
  cases hchk : st.authorCheck [ACLContentValue.userRemove ident reps] author with
  | some e => rw [hchk] at hok; simp at hok
  | none =>
    rw [hchk] at hok
    rw [applyContentList_singleton] at hok ⊢
    simp only [ACLState.applyChangeContent] at hok ⊢
    cases hrm : st.applyUserRemove crypto ident reps with
    | mk e1 st1 =>
      cases e1 with
      | some e => rw [hrm] at hok; simp at hok
      | none =>
        have hus : st1.userStates = st.userStates.filter (fun p => p.1 ≠ ident) := by
          have h0 := applyUserRemove_deletes crypto st ident reps (by rw [hrm])
          rw [hrm] at h0
          exact h0
        have hfin : alistFind st1.userStates ident = none := by
          rw [hus]; exact alistFind_filter_ne st.userStates ident
        dsimp only
        split
        · exact hfin
        · exact hfin

/-- Witness for C4 (amended) at a record whose hash 7 differs from the prior 5. -/
theorem c4_user_remove_rotation_witness :
    (stRemove.applyChangeData testCrypto
      [ACLContentValue.userRemove "B" []] 7 "A").2.currentReadKeyHash = 7 ∧
    alistFind (stRemove.applyChangeData testCrypto
      [ACLContentValue.userRemove "B" []] 7 "A").2.userStates "B" = none := by
  have h := c4_user_remove_rotation testCrypto stRemove "B" [] 7 "A" (by decide)
  exact ⟨h.1, h.2.2.2⟩

/-- C5 counterexample: a record whose first item is a UserJoin and whose second
item is a UserRemove applies successfully although its author B is not in
userStates at all (hence holds no Admin): the UserRemove of A is applied, so a
UserJoin is not restricted to being the sole item and the Admin requirement is
bypassed for the other items of such a record. -/
theorem c5_counterexample :
    (stJoin.applyChangeData testCrypto joinRemoveContent 0 "B").1 = none ∧
    alistFind (stJoin.applyChangeData testCrypto
      joinRemoveContent 0 "B").2.userStates "A" = none ∧
    alistFind stJoin.userStates "B" = none ∧
    stJoin.hasPermission "B" ACLPermissions.Admin = false ∧
    joinRemoveContent.length = 2 := by
  decide

/-- C5 (amended): the Admin requirement is enforced exactly for records whose
first content item is not a UserJoin: successful application of such a record
implies the author is present in userStates with Admin permission. Records
whose first item is a UserJoin skip the check for all their items. -/
theorem c5_admin_gate (crypto : ACLCrypto) (st : ACLState)
    (content : List ACLContentValue) (hash : Nat) (author : String)
    (hnj : isUserJoin content = false)
    (hok : (st.applyChangeData crypto content hash author).1 = none) :
    (alistFind st.userStates author).isSome = true ∧
    st.hasPermission author ACLPermissions.Admin = true := by
  cases hchk : st.authorCheck content author with
  | some e =>
    unfold ACLState.applyChangeData at hok
    rw [hchk] at hok
    simp at hok
  | none =>
    unfold ACLState.authorCheck at hchk
    rw [hnj] at hchk
    rw [if_neg (by simp)] at hchk
    by_cases hex : ((alistFind st.userStates author).isNone : Prop)
    · rw [if_pos hex] at hchk; simp at hchk
    · rw [if_neg hex] at hchk
      by_cases hadm : st.hasPermission author ACLPermissions.Admin = true
      · refine ⟨?_, hadm⟩
        cases hv : alistFind st.userStates author with
        | none => rw [hv] at hex; simp at hex
        | some u => rfl
      · rw [if_pos hadm] at hchk; simp at hchk

/-- Witness for C5 (amended): a UserInvite record by the admin A passes the
check, so A is present and has Admin. -/
theorem c5_admin_gate_witness :
    (alistFind stSoleAdmin.userStates "A").isSome = true ∧
    stSoleAdmin.hasPermission "A" ACLPermissions.Admin = true :=
  c5_admin_gate testCrypto stSoleAdmin
    [ACLContentValue.userInvite ⟨"iX", ACLPermissions.Reader, []⟩] 0 "A"
    (by decide) (by decide)

/-- C6 counterexample: in a state whose single user A is the sole Admin, a
UserPermissionChange record by A demoting A to Writer applies successfully and
changes userStates, instead of failing. -/
theorem c6_counterexample :
    (stSoleAdmin.userStates.filter
      (fun p => p.2.permissions == ACLPermissions.Admin)).length = 1 ∧
    (stSoleAdmin.applyChangeData testCrypto
      [ACLContentValue.userPermissionChange "A" ACLPermissions.Writer] 0 "A").1 = none ∧
    alistFind (stSoleAdmin.applyChangeData testCrypto
      [ACLContentValue.userPermissionChange "A" ACLPermissions.Writer]
      0 "A").2.userStates "A" = some ⟨"A", "ekA", ACLPermissions.Writer⟩ := by
  decide

/-- C6 (amended): applyUserPermissionChange succeeds for every identity present
in userStates, setting the requested permission even when this demotes the
sole remaining Admin; it fails with NoSuchUser, leaving the state unchanged,
exactly when the identity is absent. -/
theorem c6_permission_change (st : ACLState) (ident : String) (perms : ACLPermissions) :
    ((alistFind st.userStates ident = none) →
      st.applyUserPermissionChange ident perms = (some AclError.noSuchUser, st)) ∧
    (∀ u, alistFind st.userStates ident = some u →
      (st.applyUserPermissionChange ident perms).1 = none ∧
      alistFind (st.applyUserPermissionChange ident perms).2.userStates ident =
        some { u with permissions := perms }) := by
  constructor
  · intro h
    unfold ACLState.applyUserPermissionChange
    rw [h]
  · intro u h
    unfold ACLState.applyUserPermissionChange
    rw [h]
    exact ⟨rfl, alistFind_insert st.userStates ident _⟩

/-- Witness for C6 (amended): demoting the sole admin A of stSoleAdmin. -/
theorem c6_permission_change_witness :
    (stSoleAdmin.applyUserPermissionChange "A" ACLPermissions.Writer).1 = none ∧
    alistFind (stSoleAdmin.applyUserPermissionChange "A"
      ACLPermissions.Writer).2.userStates "A" =
      some ⟨"A", "ekA", ACLPermissions.Writer⟩ := by
  have h := (c6_permission_change stSoleAdmin "A" ACLPermissions.Writer).2
    ⟨"A", "ekA", ACLPermissions.Admin⟩ (by decide)
  exact ⟨h.1, h.2⟩

/-! ### Document-tree claims -/

/-- C1 (code evaluation at the failing input): the linear-append scenario
attaches c1 and c2 and moves the in-memory heads to c2, yet the returned
AddResult has empty OldHeads and empty Heads: prevHeadsCopy and headsCopy are
zero-length slices that copy fills with nothing. -/
theorem c1_add_result_heads_bug :
    initialDoc.tree.heads = ["r"] ∧
    (addRawChangesCall allValid initialDoc [c1Change, c2Change]).res.oldHeads = [] ∧
    (addRawChangesCall allValid initialDoc [c1Change, c2Change]).res.heads = [] ∧
    (addRawChangesCall allValid initialDoc [c1Change, c2Change]).res.summary =
      Summary.append ∧
    (addRawChangesCall allValid initialDoc [c1Change, c2Change]).res.added =
      [c1Change, c2Change] ∧
    (addRawChangesCall allValid initialDoc
      [c1Change, c2Change]).state.tree.heads = ["c2"] ∧
    (addRawChangesCall allValid initialDoc [c1Change, c2Change]).err = none := by
  decide

/-- Helper: hasId is membership among the mapped ids. -/
theorem hasId_iff (l : List Change) (i : String) :
    hasId l i = true ↔ i ∈ l.map (fun c => c.id) := by
  simp [hasId, List.any_eq_true, List.mem_map]

/-- Helper: hasChangeB is membership in allIds. -/
theorem hasChangeB_iff (t : Tree) (i : String) :
    hasChangeB t i = true ↔ i ∈ allIds t := by
  simp [hasChangeB, allIds, hasId_iff, List.mem_append]

/-- Helper: hasChangeB false is absence from allIds. -/
theorem hasChangeB_eq_false (t : Tree) (i : String) :
    hasChangeB t i = false ↔ i ∉ allIds t := by
  rw [← hasChangeB_iff]
  cases h : hasChangeB t i <;> simp

/-- Helper: inserting a fresh id appends. -/
theorem chInsert_fresh (l : List Change) (c : Change) (h : hasId l c.id = false) :
    chInsert l c = l ++ [c] := by
  unfold chInsert
  have hf : l.filter (fun x => x.id ≠ c.id) = l := by
    rw [List.filter_eq_self]
    intro x hx
    have : x.id ≠ c.id := by
      intro he
      have : hasId l c.id = true := by
        rw [hasId_iff]
        exact List.mem_map.mpr ⟨x, hx, he⟩
      rw [this] at h
      cases h
    simpa using this
  rw [hf]

/-- Helper: the ids of a map delete are a filter of the ids. -/
theorem chErase_ids (l : List Change) (i : String) :
    (chErase l i).map (fun c => c.id) =
      (l.map (fun c => c.id)).filter (fun x => x ≠ i) := by
  induction l with
  | nil => rfl
  | cons c rest ih =>
    by_cases h : c.id = i <;> simp [chErase, List.filter_cons, h] <;>
      simpa [chErase] using ih

/-- Helper: the placement pass accumulates exactly the candidate ids (for a
well-formed tree, fresh candidates and duplicate-free candidate ids), and it
leaves heads and root untouched. -/
theorem placeAll_allIds (cs : List Change) :
    ∀ t : Tree, (allIds t).Nodup →
      (∀ c ∈ cs, hasChangeB t c.id = false) →
      (cs.map (fun c => c.id)).Nodup →
      (allIds (placeAll t cs)).Perm (allIds t ++ cs.map (fun c => c.id)) ∧
      (placeAll t cs).heads = t.heads ∧ (placeAll t cs).rootId = t.rootId := by
  induction cs with
  | nil => intro t _ _ _; simp [placeAll]
  | cons c rest ih =>
    intro t hwf hfresh hnodup
    have hc : hasChangeB t c.id = false := hfresh c (List.mem_cons_self c rest)
    have hcni : c.id ∉ allIds t := (hasChangeB_eq_false t c.id).mp hc
    have hcatt : hasId t.attached c.id = false := by
      cases h : hasId t.attached c.id
      · rfl
      · exact absurd (List.mem_append_left _ ((hasId_iff _ _).mp h)) hcni
    have hcun : hasId t.unAttached c.id = false := by
      cases h : hasId t.unAttached c.id
      · rfl
      · exact absurd (List.mem_append_right _ ((hasId_iff _ _).mp h)) hcni
    have hstep : allIds (if canAttach t.attached c
        then { t with attached := chInsert t.attached c }
        else { t with unAttached := chInsert t.unAttached c }) =
        if canAttach t.attached c
        then (t.attached ++ [c]).map (fun x => x.id) ++
          t.unAttached.map (fun x => x.id)
        else t.attached.map (fun x => x.id) ++
          (t.unAttached ++ [c]).map (fun x => x.id) := by
      by_cases hca : canAttach t.attached c = true
      · rw [if_pos hca, if_pos hca]
        unfold allIds
        rw [chInsert_fresh _ _ hcatt]
      · rw [if_neg hca, if_neg hca]
        unfold allIds
        rw [chInsert_fresh _ _ hcun]
    have hperm1 : (allIds (if canAttach t.attached c
        then { t with attached := chInsert t.attached c }
        else { t with unAttached := chInsert t.unAttached c })).Perm
        (allIds t ++ [c.id]) := by
      rw [hstep]
      by_cases hca : canAttach t.attached c = true
      · rw [if_pos hca]
        unfold allIds
        rw [List.map_append, List.append_assoc, List.append_assoc]
        exact List.Perm.append_left _ List.perm_append_comm
      · rw [if_neg hca]
        unfold allIds
        rw [List.map_append, List.append_assoc]
        exact List.Perm.refl _
    set t1 := (if canAttach t.attached c
        then { t with attached := chInsert t.attached c }
        else { t with unAttached := chInsert t.unAttached c }) with ht1
    have hwf1 : (allIds t1).Nodup := by
      refine hperm1.symm.nodup ?_
      rw [List.nodup_append]
      exact ⟨hwf, List.nodup_singleton _, by simpa using hcni⟩
    have hfresh1 : ∀ x ∈ rest, hasChangeB t1 x.id = false := by
      intro x hx
      rw [hasChangeB_eq_false]
      intro hmem
      have hmem2 := hperm1.mem_iff.mp hmem
      rcases List.mem_append.mp hmem2 with h | h
      · exact absurd h ((hasChangeB_eq_false t x.id).mp (hfresh x (List.mem_cons_of_mem _ hx)))
      · have hxid : x.id = c.id := by simpa using h
        have : ¬ c.id ∈ rest.map (fun y => y.id) := by
          have := hnodup
          simp only [List.map_cons, List.nodup_cons] at this
          exact this.1
        exact this (hxid ▸ List.mem_map.mpr ⟨x, hx, rfl⟩)
    have hnodup1 : (rest.map (fun y => y.id)).Nodup := by
      have := hnodup
      simp only [List.map_cons, List.nodup_cons] at this
      exact this.2
    obtain ⟨hih, hih2, hih3⟩ := ih t1 hwf1 hfresh1 hnodup1
    have hfold : placeAll t (c :: rest) = placeAll t1 rest := by
      unfold placeAll
      rw [List.foldl_cons]
    refine ⟨?_, ?_, ?_⟩
    · rw [hfold]
      refine hih.trans ?_
      refine (List.Perm.append_right _ hperm1).trans ?_
      rw [List.append_assoc]
      exact List.Perm.append_left _ (by simp)
    · rw [hfold, hih2, ht1]
      by_cases hca : canAttach t.attached c = true
      · rw [if_pos hca]
      · rw [if_neg hca]
    · rw [hfold, hih3, ht1]
      by_cases hca : canAttach t.attached c = true
      · rw [if_pos hca]
      · rw [if_neg hca]

/-- Helper: on a duplicate-free list, filtering one value out is erasing it. -/
theorem filter_ne_eq_erase (i : String) :
    ∀ l : List String, l.Nodup → l.filter (fun x => x ≠ i) = l.erase i := by
  intro l
  induction l with
  | nil => intro _; rfl
  | cons a rest ih =>
    intro h
    obtain ⟨ha, hrest⟩ := List.nodup_cons.mp h
    by_cases hai : a = i
    · subst hai
      rw [List.erase_cons_head, List.filter_cons]
      rw [if_neg (by simp)]
      rw [List.filter_eq_self]
      intro x hx
      simp only [ne_eq, decide_eq_true_eq]
      intro hxe
      exact ha (hxe ▸ hx)
    · rw [List.erase_cons_tail (by simpa using hai), List.filter_cons,
        if_pos (by simpa using hai), ih hrest]

/-- Helper: the drain loop moves changes between the partitions but preserves
the multiset of ids (for duplicate-free ids). -/
theorem drain_allIds : ∀ (fuel : Nat) (att un : List Change),
    (att.map (fun c => c.id) ++ un.map (fun c => c.id)).Nodup →
    ((drain fuel att un).1.map (fun c => c.id) ++
      (drain fuel att un).2.map (fun c => c.id)).Perm
      (att.map (fun c => c.id) ++ un.map (fun c => c.id)) := by
  intro fuel
  induction fuel with
  | zero => intro att un h; simp [drain]
  | succ fuel ih =>
    intro att un h
    cases hf : un.find? (fun c => canAttach att c) with
    | none =>
      have hdo : drain (fuel + 1) att un = (att, un) := by
        simp only [drain, drainOnce, hf]
      rw [hdo]
    | some c =>
      have hdo : drain (fuel + 1) att un =
          drain fuel (chInsert att c) (chErase un c.id) := by
        simp only [drain, drainOnce, hf]
      rw [hdo]
      have hcun : c ∈ un := List.mem_of_find?_eq_some hf
      have hcid_un : c.id ∈ un.map (fun x => x.id) :=
        List.mem_map.mpr ⟨c, hcun, rfl⟩
      have hdisj := List.disjoint_of_nodup_append h
      have hcid_att : hasId att c.id = false := by
        cases hh : hasId att c.id
        · rfl
        · exact absurd hcid_un (hdisj ((hasId_iff _ _).mp hh))
      have hins : chInsert att c = att ++ [c] := chInsert_fresh att c hcid_att
      have hun_nodup : (un.map (fun x => x.id)).Nodup :=
        (List.nodup_append.mp h).2.1
      have herase : (chErase un c.id).map (fun x => x.id) =
          (un.map (fun x => x.id)).erase c.id := by
        rw [chErase_ids]
        exact filter_ne_eq_erase c.id _ hun_nodup
      have hperm_step : ((chInsert att c).map (fun x => x.id) ++
          (chErase un c.id).map (fun x => x.id)).Perm
          (att.map (fun x => x.id) ++ un.map (fun x => x.id)) := by
        rw [hins, herase, List.map_append, List.append_assoc]
        refine List.Perm.append_left _ ?_
        have h1 : (un.map (fun x => x.id)).Perm
            (c.id :: (un.map (fun x => x.id)).erase c.id) :=
          List.perm_cons_erase hcid_un
        have h2 : List.map (fun x => x.id) [c] ++
            (un.map (fun x => x.id)).erase c.id =
            c.id :: (un.map (fun x => x.id)).erase c.id := rfl
        rw [h2]
        exact h1.symm
      have hwf2 : ((chInsert att c).map (fun x => x.id) ++
          (chErase un c.id).map (fun x => x.id)).Nodup :=
        hperm_step.symm.nodup h
      exact (ih _ _ hwf2).trans hperm_step

/-- Helper: the tree returned by Tree.add, independent of the mode branch. -/
theorem add_fst (t : Tree) (cs : List Change) :
    (t.add cs).1 =
      { t with
        attached := (drain (placeAll t cs).unAttached.length
          (placeAll t cs).attached (placeAll t cs).unAttached).1,
        unAttached := (drain (placeAll t cs).unAttached.length
          (placeAll t cs).attached (placeAll t cs).unAttached).2,
        heads := computeHeads (drain (placeAll t cs).unAttached.length
          (placeAll t cs).attached (placeAll t cs).unAttached).1 } := by
  simp only [Tree.add]
  split
  · rfl
  · split
    · rfl
    · rfl

/-- Helper: after Tree.add on fresh duplicate-free candidates the ids of the
two partitions are a permutation of the old ids plus the candidate ids. -/
theorem add_allIds (t : Tree) (cs : List Change)
    (hwf : (allIds t).Nodup)
    (hfresh : ∀ c ∈ cs, hasChangeB t c.id = false)
    (hnodup : (cs.map (fun c => c.id)).Nodup) :
    (allIds (t.add cs).1).Perm (allIds t ++ cs.map (fun c => c.id)) := by
  obtain ⟨hperm, _, _⟩ := placeAll_allIds cs t hwf hfresh hnodup
  have hwf1 : (allIds (placeAll t cs)).Nodup := by
    refine hperm.symm.nodup ?_
    rw [List.nodup_append]
    refine ⟨hwf, hnodup, ?_⟩
    intro i hi hj
    obtain ⟨c, hc, rfl⟩ := List.mem_map.mp hj
    exact (hasChangeB_eq_false t c.id).mp (hfresh c hc) hi
  have hd := drain_allIds (placeAll t cs).unAttached.length
    (placeAll t cs).attached (placeAll t cs).unAttached hwf1
  have : allIds (t.add cs).1 =
      (drain (placeAll t cs).unAttached.length (placeAll t cs).attached
        (placeAll t cs).unAttached).1.map (fun c => c.id) ++
      (drain (placeAll t cs).unAttached.length (placeAll t cs).attached
        (placeAll t cs).unAttached).2.map (fun c => c.id) := by
    rw [add_fst]
    rfl
  rw [this]
  exact hd.trans hperm

/-- Helper: the rollback step only deletes, so the id sets only shrink. -/
theorem rollbackStep_allIds_sublist (t : Tree) (c : Change) :
    (allIds (rollbackStep t c)).Sublist (allIds t) := by
  unfold rollbackStep
  split
  · exact List.Sublist.append (((List.filter_sublist _)).map _) (List.Sublist.refl _)
  · split
    · exact List.Sublist.append (List.Sublist.refl _) (((List.filter_sublist _)).map _)
    · exact List.Sublist.refl _

/-- Helper: for a well-formed tree, the rollback step removes the id from both
partitions. -/
theorem rollbackStep_removes (t : Tree) (c : Change)
    (hwf : (allIds t).Nodup) :
    c.id ∉ allIds (rollbackStep t c) := by
  unfold rollbackStep
  split
  · next h =>
    intro hmem
    rcases List.mem_append.mp hmem with hm | hm
    · rw [chErase_ids] at hm
      have := (List.mem_filter.mp hm).2
      simp at this
    · exact (List.disjoint_of_nodup_append hwf) ((hasId_iff _ _).mp h) hm
  · split
    · next h h2 =>
      intro hmem
      rcases List.mem_append.mp hmem with hm | hm
      · have : hasId t.attached c.id = true := (hasId_iff _ _).mpr hm
        rw [this] at h
        exact h rfl
      · rw [chErase_ids] at hm
        have := (List.mem_filter.mp hm).2
        simp at this
    · next h h2 =>
      intro hmem
      rcases List.mem_append.mp hmem with hm | hm
      · have : hasId t.attached c.id = true := (hasId_iff _ _).mpr hm
        rw [this] at h
        exact h rfl
      · have : hasId t.unAttached c.id = true := (hasId_iff _ _).mpr hm
        rw [this] at h2
        exact h2 rfl

/-- Helper: an absent id stays absent through the rollback loop. -/
theorem rollback_keeps_absent (cs : List Change) :
    ∀ (t : Tree) (i : String), i ∉ allIds t → i ∉ allIds (rollbackTree t cs) := by
  induction cs with
  | nil => intro t i h; exact h
  | cons c rest ih =>
    intro t i h
    have hstep : i ∉ allIds (rollbackStep t c) :=
      fun hm => h ((rollbackStep_allIds_sublist t c).mem hm)
    exact ih (rollbackStep t c) i hstep

/-- Helper: well-formedness survives the rollback steps. -/
theorem rollbackStep_nodup (t : Tree) (c : Change)
    (hwf : (allIds t).Nodup) : (allIds (rollbackStep t c)).Nodup :=
  (rollbackStep_allIds_sublist t c).nodup hwf

/-- Helper: after rollback every candidate id is gone from both partitions. -/
theorem rollback_removes (cs : List Change) :
    ∀ t : Tree, (allIds t).Nodup →
      ∀ c ∈ cs, c.id ∉ allIds (rollbackTree t cs) := by
  induction cs with
  | nil => intro t _ c hc; cases hc
  | cons c0 rest ih =>
    intro t hwf c hc
    have hfold : rollbackTree t (c0 :: rest) = rollbackTree (rollbackStep t c0) rest := by
      unfold rollbackTree
      rw [List.foldl_cons]
    rw [hfold]
    rcases List.mem_cons.mp hc with rfl | hcr
    · exact rollback_keeps_absent rest (rollbackStep t c) c.id
        (rollbackStep_removes t c hwf)
    · exact ih (rollbackStep t c0) (rollbackStep_nodup t c0 hwf) c hcr

/-- Helper: the rollback loop never touches the stored heads or the root. -/
theorem rollback_heads (cs : List Change) :
    ∀ t : Tree, (rollbackTree t cs).heads = t.heads ∧
      (rollbackTree t cs).rootId = t.rootId := by
  induction cs with
  | nil => intro t; exact ⟨rfl, rfl⟩
  | cons c rest ih =>
    intro t
    have hfold : rollbackTree t (c :: rest) = rollbackTree (rollbackStep t c) rest := by
      unfold rollbackTree
      rw [List.foldl_cons]
    rw [hfold]
    obtain ⟨h1, h2⟩ := ih (rollbackStep t c)
    have hsh : (rollbackStep t c).heads = t.heads ∧
        (rollbackStep t c).rootId = t.rootId := by
      unfold rollbackStep
      split
      · exact ⟨rfl, rfl⟩
      · split
        · exact ⟨rfl, rfl⟩
        · exact ⟨rfl, rfl⟩
    exact ⟨h1.trans hsh.1, h2.trans hsh.2⟩

/-- Helper: every candidate is fresh for the tree. -/
theorem candidates_fresh (t : Tree) (raws : List Change) :
    ∀ c ∈ candidatesOf t raws, hasChangeB t c.id = false := by
  intro c hc
  have := (List.mem_filter.mp hc).2
  simpa using this

/-- C2 (amended): a batch on the incremental path (no candidate referencing an
old snapshot) whose post-Add tree fails validation returns HasInvalidChanges,
removes every candidate id from both partitions, makes no storage call and
fires no notification; but the tree is not fully restored: its stored head
list is the one recomputed by Add, which may name removed changes, not the
pre-call head list. -/
theorem c2_invalid_batch_rollback (valid : String → Bool) (d : DocTreeState)
    (raws : List Change)
    (hwf : (allIds d.tree).Nodup)
    (hnodup : ((candidatesOf d.tree raws).map (fun c => c.id)).Nodup)
    (hne : (candidatesOf d.tree raws).isEmpty = false)
    (hsnap : (candidatesOf d.tree raws).any
      (fun ch => isOldSnapshotB d.tree raws ch) = false)
    (hmode : (d.tree.add (candidatesOf d.tree raws)).2 ≠ Mode.nothing)
    (hval : validateTree valid (d.tree.add (candidatesOf d.tree raws)).1 = false) :
    (addRawChangesCall valid d raws).err = some DocError.hasInvalidChanges ∧
    (addRawChangesCall valid d raws).writes = [] ∧
    (addRawChangesCall valid d raws).events = [] ∧
    (∀ c ∈ candidatesOf d.tree raws,
      hasChangeB (addRawChangesCall valid d raws).state.tree c.id = false) ∧
    (addRawChangesCall valid d raws).state.tree.heads =
      (d.tree.add (candidatesOf d.tree raws)).1.heads ∧
    (addRawChangesCall valid d raws).state.storage = d.storage := by
  have hinner : addRawChangesInner valid d raws =
      ⟨(d.tree.add (candidatesOf d.tree raws)).2, zeroAddResult,
        some DocError.hasInvalidChanges,
        rollbackTree (d.tree.add (candidatesOf d.tree raws)).1
          (candidatesOf d.tree raws)⟩ := by
    cases hm : (d.tree.add (candidatesOf d.tree raws)).2 with
    | nothing => exact absurd hm hmode
    | append =>
      simp only [addRawChangesInner, hne, hsnap, Bool.false_eq_true, if_false, hm]
      rw [if_neg (by rw [hval]; simp)]
    | rebuild =>
      simp only [addRawChangesInner, hne, hsnap, Bool.false_eq_true, if_false, hm]
      rw [if_neg (by rw [hval]; simp)]
  have hcall : addRawChangesCall valid d raws =
      ⟨⟨rollbackTree (d.tree.add (candidatesOf d.tree raws)).1
          (candidatesOf d.tree raws), d.storage⟩, zeroAddResult,
        some DocError.hasInvalidChanges, [], []⟩ := by
    unfold addRawChangesCall
    rw [hinner]
  have hfresh := candidates_fresh d.tree raws
  have hdisj : ∀ i ∈ allIds d.tree,
      i ∉ (candidatesOf d.tree raws).map (fun c => c.id) := by
    intro i hi hj
    obtain ⟨c, hc, rfl⟩ := List.mem_map.mp hj
    exact (hasChangeB_eq_false d.tree c.id).mp (hfresh c hc) hi
  have hwfadd : (allIds (d.tree.add (candidatesOf d.tree raws)).1).Nodup := by
    refine (add_allIds d.tree (candidatesOf d.tree raws) hwf hfresh hnodup).symm.nodup ?_
    rw [List.nodup_append]
    exact ⟨hwf, hnodup, hdisj⟩
  refine ⟨by rw [hcall], by rw [hcall], by rw [hcall], ?_, ?_, by rw [hcall]⟩
  · intro c hc
    rw [hcall]
    exact (hasChangeB_eq_false _ _).mpr
      (rollback_removes (candidatesOf d.tree raws) _ hwfadd c hc)
  · rw [hcall]
    exact (rollback_heads (candidatesOf d.tree raws)
      (d.tree.add (candidatesOf d.tree raws)).1).1

/-- Witness for C2 (amended) at the concrete invalid batch: the call fails
with HasInvalidChanges, c1 is gone from both partitions, nothing was written,
and the head list equals the one Add computed. -/
theorem c2_invalid_batch_rollback_witness :
    (addRawChangesCall rejectC1 initialDoc [c1Change]).err =
      some DocError.hasInvalidChanges ∧
    (addRawChangesCall rejectC1 initialDoc [c1Change]).writes = [] ∧
    (addRawChangesCall rejectC1 initialDoc [c1Change]).events = [] ∧
    (∀ c ∈ candidatesOf initialDoc.tree [c1Change],
      hasChangeB (addRawChangesCall rejectC1 initialDoc [c1Change]).state.tree
        c.id = false) ∧
    (addRawChangesCall rejectC1 initialDoc [c1Change]).state.tree.heads =
      (initialDoc.tree.add (candidatesOf initialDoc.tree [c1Change])).1.heads ∧
    (addRawChangesCall rejectC1 initialDoc [c1Change]).state.storage =
      initialDoc.storage :=
  c2_invalid_batch_rollback rejectC1 initialDoc [c1Change]
    (by decide) (by decide) (by decide) (by decide) (by decide) (by decide)

/-- C2 counterexample: a batch whose only change c1 fails validation returns
HasInvalidChanges, removes the candidate from both partitions and writes
nothing to storage, but the stored head list of the tree now reads [c1] — the
id of the rolled-back change — instead of the pre-call [r]: the tree is
distinguishable from its pre-call state. -/
theorem c2_rollback_heads_counterexample :
    (addRawChangesCall rejectC1 initialDoc [c1Change]).err =
      some DocError.hasInvalidChanges ∧
    (addRawChangesCall rejectC1 initialDoc [c1Change]).state.tree.attached =
      [rootChange] ∧
    (addRawChangesCall rejectC1 initialDoc [c1Change]).state.tree.unAttached = [] ∧
    (addRawChangesCall rejectC1 initialDoc [c1Change]).writes = [] ∧
    (addRawChangesCall rejectC1 initialDoc [c1Change]).state.tree.heads = ["c1"] ∧
    initialDoc.tree.heads = ["r"] := by
  decide

/-- C3 counterexample: repeating the ingest of c1 and c2 yields summary
Nothing on the second call, yet the second call still performs a storage
write: the unconditional SetHeads of AddRawChanges. -/
theorem c3_second_call_writes_counterexample :
    (addRawChangesCall allValid docAfterFirst [c1Change, c2Change]).res.summary =
      Summary.nothing ∧
    (addRawChangesCall allValid docAfterFirst [c1Change, c2Change]).writes =
      [StorageWrite.setHeads ["c2"]] := by
  decide

/-- C3 (amended): when every id of the batch is known to the tree after the
first call, the second call returns summary Nothing with no error, no
notification and no AddRawChange write, but still makes exactly one SetHeads
call. -/
theorem c3_idempotent_ingest (valid : String → Bool) (d : DocTreeState)
    (raws : List Change)
    (hknown : ∀ c ∈ raws,
      hasChangeB (addRawChangesCall valid d raws).state.tree c.id = true) :
    (addRawChangesCall valid (addRawChangesCall valid d raws).state raws).res.summary =
      Summary.nothing ∧
    (addRawChangesCall valid (addRawChangesCall valid d raws).state raws).err = none ∧
    (addRawChangesCall valid (addRawChangesCall valid d raws).state raws).writes =
      [StorageWrite.setHeads
        ((addRawChangesCall valid d raws).state.tree.reduceTree.heads)] ∧
    (addRawChangesCall valid (addRawChangesCall valid d raws).state raws).events =
      [] := by
  set d1 := (addRawChangesCall valid d raws).state with hd1
  have hnil : candidatesOf d1.tree raws = [] := by
    unfold candidatesOf
    rw [List.filter_eq_nil_iff]
    intro c hc
    have hc2 := hknown c hc
    simp [hc2]
  have hinner : addRawChangesInner valid d1 raws =
      ⟨Mode.nothing, ⟨goZeroLenCopy d1.tree.heads, goZeroLenCopy d1.tree.heads, [],
        Summary.nothing⟩, none, d1.tree⟩ := by
    unfold addRawChangesInner
    rw [hnil]
    rfl
  unfold addRawChangesCall
  rw [hinner]
  exact ⟨rfl, rfl, rfl, rfl⟩

/-- Witness for C3 (amended): the concrete two-change batch. -/
theorem c3_idempotent_ingest_witness :
    (addRawChangesCall allValid
      (addRawChangesCall allValid initialDoc [c1Change, c2Change]).state
      [c1Change, c2Change]).res.summary = Summary.nothing ∧
    (addRawChangesCall allValid
      (addRawChangesCall allValid initialDoc [c1Change, c2Change]).state
      [c1Change, c2Change]).err = none ∧
    (addRawChangesCall allValid
      (addRawChangesCall allValid initialDoc [c1Change, c2Change]).state
      [c1Change, c2Change]).writes =
      [StorageWrite.setHeads
        ((addRawChangesCall allValid initialDoc
          [c1Change, c2Change]).state.tree.reduceTree.heads)] ∧
    (addRawChangesCall allValid
      (addRawChangesCall allValid initialDoc [c1Change, c2Change]).state
      [c1Change, c2Change]).events = [] :=
  c3_idempotent_ingest allValid initialDoc [c1Change, c2Change] (by decide)

/-! ### AddContent claim -/

/-- C8: AddContent fires the Update notification exactly once on every path,
including each error path; on the error paths before the storage call no
write was made, so the notification does not imply the change was created or
persisted. -/
theorem c8_add_content_always_notifies (e : AddContentEnv) :
    (addContent e).2.2 = [Event.update] ∧
    (e.readKeyOk = false → (addContent e).1 = some DocError.noReadKey ∧
      (addContent e).2.1 = []) ∧
    (e.readKeyOk = true → e.encryptOk = false →
      (addContent e).1 = some DocError.encryptFailed ∧ (addContent e).2.1 = []) ∧
    (e.readKeyOk = true → e.encryptOk = true → e.signOk = false →
      (addContent e).1 = some DocError.signFailed ∧ (addContent e).2.1 = []) := by
  unfold addContent runWithDefer addContentBody
  cases hr : e.readKeyOk <;> cases he : e.encryptOk <;> cases hs : e.signOk <;>
    cases hst : e.storeOk <;> cases hsh : e.setHeadsOk <;> simp

/-- Witness for C8 on the NoReadKey error path: the notification fires and the
error is returned. -/
theorem c8_add_content_always_notifies_witness :
    (addContent ⟨false, true, true, true, true⟩).2.2 = [Event.update] ∧
    (addContent ⟨false, true, true, true, true⟩).1 = some DocError.noReadKey := by
  have h := c8_add_content_always_notifies ⟨false, true, true, true, true⟩
  exact ⟨h.1, (h.2.1 rfl).1⟩

/-! ### HotSync claim -/

/-- Helper: membership in the syncQueue set insert. -/
theorem mem_setInsert (l : List String) (j i : String) :
    i ∈ setInsert l j ↔ i ∈ l ∨ i = j := by
  unfold setInsert
  by_cases h : l.contains j
  · rw [if_pos h]
    constructor
    · exact Or.inl
    · rintro (hi | rfl)
      · exact hi
      · exact List.mem_of_elem_eq_true h
  · rw [if_neg h]
    simp [List.mem_append]

/-- Helper: the load loop counts the failed loads into hit, the successful
ones into miss, and inserts exactly the successfully loaded ids. -/
theorem loadLoop_spec (loadOk : String → Bool) :
    ∀ (l sq : List String) (hits misses : Nat),
      (loadLoop loadOk l sq hits misses).2.1 =
        hits + (l.filter (fun i => ! loadOk i)).length ∧
      (loadLoop loadOk l sq hits misses).2.2 =
        misses + (l.filter (fun i => loadOk i)).length ∧
      (∀ i, i ∈ (loadLoop loadOk l sq hits misses).1 ↔
        i ∈ sq ∨ (i ∈ l ∧ loadOk i = true)) := by
  intro l
  induction l with
  | nil =>
    intro sq hits misses
    refine ⟨by simp [loadLoop], by simp [loadLoop], fun i => by simp [loadLoop]⟩
  | cons x rest ih =>
    intro sq hits misses
    by_cases hx : loadOk x = true
    · simp only [loadLoop]
      rw [if_pos hx]
      obtain ⟨h1, h2, h3⟩ := ih (setInsert sq x) hits (misses + 1)
      refine ⟨?_, ?_, ?_⟩
      · rw [h1]; simp [List.filter_cons, hx]
      · rw [h2]; simp [List.filter_cons, hx]; omega
      · intro i
        rw [h3 i, mem_setInsert]
        constructor
        · rintro ((hi | rfl) | ⟨hi, hl⟩)
          · exact Or.inl hi
          · exact Or.inr ⟨List.mem_cons_self _ _, hx⟩
          · exact Or.inr ⟨List.mem_cons_of_mem _ hi, hl⟩
        · rintro (hi | ⟨hi, hl⟩)
          · exact Or.inl (Or.inl hi)
          · rcases List.mem_cons.mp hi with rfl | hi
            · exact Or.inl (Or.inr rfl)
            · exact Or.inr ⟨hi, hl⟩
    · simp only [loadLoop]
      rw [if_neg hx]
      obtain ⟨h1, h2, h3⟩ := ih sq (hits + 1) misses
      refine ⟨?_, ?_, ?_⟩
      · rw [h1]; simp [List.filter_cons, hx]; omega
      · rw [h2]; simp [List.filter_cons, hx]
      · intro i
        rw [h3 i]
        constructor
        · rintro (hi | ⟨hi, hl⟩)
          · exact Or.inl hi
          · exact Or.inr ⟨List.mem_cons_of_mem _ hi, hl⟩
        · rintro (hi | ⟨hi, hl⟩)
          · exact Or.inl hi
          · rcases List.mem_cons.mp hi with rfl | hi
            · exact absurd hl hx
            · exact Or.inr ⟨hi, hl⟩

/-- C7: one periodic tick prunes the sync queue, dequeues exactly
n = min(budget, queue length) ids from the front of the space queue, counts a
hit for each failed load (dropping the id) and a miss for each successful one
(inserting the id into the sync queue). -/
theorem c7_hot_sync_tick (inCache loadOk : String → Bool) (s : HotSyncState)
    (hb : (s.syncQueue.filter inCache).length ≤ s.simultaneousSync) :
    ∃ r, checkCache inCache loadOk s = some r ∧
      r.batch = s.spaceQueue.take
        (min (s.simultaneousSync - (s.syncQueue.filter inCache).length)
          s.spaceQueue.length) ∧
      r.batch.length =
        min (s.simultaneousSync - (s.syncQueue.filter inCache).length)
          s.spaceQueue.length ∧
      s.spaceQueue = r.batch ++ r.state.spaceQueue ∧
      r.hitInc = (r.batch.filter (fun i => ! loadOk i)).length ∧
      r.missInc = (r.batch.filter (fun i => loadOk i)).length ∧
      (∀ i, i ∈ r.state.syncQueue ↔
        i ∈ s.syncQueue.filter inCache ∨ (i ∈ r.batch ∧ loadOk i = true)) := by
  have hn : ¬ batchLen { s with syncQueue := s.syncQueue.filter inCache } < 0 := by
    unfold batchLen
    dsimp only
    omega
  have hk : (batchLen { s with syncQueue := s.syncQueue.filter inCache }).toNat =
      min (s.simultaneousSync - (s.syncQueue.filter inCache).length)
        s.spaceQueue.length := by
    unfold batchLen
    dsimp only
    omega
  unfold checkCache
  rw [if_neg hn]
  dsimp only
  obtain ⟨h1, h2, h3⟩ := loadLoop_spec loadOk
    (s.spaceQueue.take
      (batchLen { s with syncQueue := s.syncQueue.filter inCache }).toNat)
    (s.syncQueue.filter inCache) 0 0
  refine ⟨_, rfl, ?_, ?_, ?_, ?_, ?_, ?_⟩
  · rw [hk]
  · rw [hk, List.length_take]
    omega
  · exact (List.take_append_drop _ s.spaceQueue).symm
  · simpa using h1
  · simpa using h2
  · intro i
    exact h3 i

/-- Witness for C7: budget 2, four queued spaces, the load of b failing:
the tick dequeues [a, b], counts one hit and one miss, and syncs a. -/
theorem c7_hot_sync_tick_witness :
    ∃ r, checkCache allCached loadNotB hotState = some r ∧
      r.batch = hotState.spaceQueue.take
        (min (hotState.simultaneousSync -
          (hotState.syncQueue.filter allCached).length)
          hotState.spaceQueue.length) ∧
      r.batch.length =
        min (hotState.simultaneousSync -
          (hotState.syncQueue.filter allCached).length)
          hotState.spaceQueue.length ∧
      hotState.spaceQueue = r.batch ++ r.state.spaceQueue ∧
      r.hitInc = (r.batch.filter (fun i => ! loadNotB i)).length ∧
      r.missInc = (r.batch.filter (fun i => loadNotB i)).length ∧
      (∀ i, i ∈ r.state.syncQueue ↔
        i ∈ hotState.syncQueue.filter allCached ∨
          (i ∈ r.batch ∧ loadNotB i = true)) :=
  c7_hot_sync_tick allCached loadNotB hotState (by decide)

/-! ### Responsible-peer claim -/

/-- Helper: a refresh (stale or empty list) appends the configured node ids. -/
theorem refresh_appends (nodeIds : List String) (s : NodePeerState) :
    (getResponsiblePeersObjects nodeIds (staleTick s)).2.responsiblePeers =
      s.responsiblePeers ++ nodeIds := by
  unfold getResponsiblePeersObjects staleTick
  rw [if_neg (by simp)]

/-- Helper: the peer count after k refreshes. -/
theorem refreshIter_count (nodeIds : List String) (id : String) :
    ∀ (k : Nat) (s : NodePeerState),
      (refreshIter nodeIds k s).responsiblePeers.count id =
        s.responsiblePeers.count id + k * nodeIds.count id := by
  intro k
  induction k with
  | zero => intro s; simp [refreshIter]
  | succ k ih =>
    intro s
    simp only [refreshIter]
    rw [ih, refresh_appends, List.count_append]
    ring

/-- C9: the responsible-peer list is append-only — every refresh appends the
full configured node-id list to the existing list — so after k refreshes from
the initial empty list an id configured once appears k times. -/
theorem c9_responsible_peers_append_only (nodeIds : List String) (k : Nat)
    (id : String) (h1 : nodeIds.count id = 1) :
    (∀ s : NodePeerState,
      (getResponsiblePeersObjects nodeIds (staleTick s)).2.responsiblePeers =
        s.responsiblePeers ++ nodeIds) ∧
    (refreshIter nodeIds k ⟨[], false⟩).responsiblePeers.count id = k := by
  constructor
  · exact refresh_appends nodeIds
  · rw [refreshIter_count]
    simp [h1]

/-- Witness for C9 with two configured peers and three refreshes. -/
theorem c9_responsible_peers_append_only_witness :
    (∀ s : NodePeerState,
      (getResponsiblePeersObjects ["n1", "n2"] (staleTick s)).2.responsiblePeers =
        s.responsiblePeers ++ ["n1", "n2"]) ∧
    (refreshIter ["n1", "n2"] 3 ⟨[], false⟩).responsiblePeers.count "n1" = 3 :=
  c9_responsible_peers_append_only ["n1", "n2"] 3 "n1" (by decide)

end AnySync
